import Mathlib

/-!
Shallow embedding of the `RiskEngine` class of `app.py` (Risquanta).

The stored dataframe is modelled as a date-indexed list of adjusted-close
prices with dates as integers and prices as exact rationals.  Pandas label
slicing `df.loc[start:end]` on a sorted index keeps the rows whose date lies
in the inclusive window and yields an empty frame when `start > end`.
`pct_change` produces `p[i]/p[i-1] - 1` with a missing value at index 0;
the subsequent `dropna` leaves exactly the list of simple returns.

Every metric is a pure function of the store, the window and its parameters.
Since the Python code has no error handling of its own, an operation can end
in four observably different ways, captured by `Outcome`:
* `ok v`     — a finite number (or number/date pair) is returned;
* `nan`      — a floating-point NaN is returned (e.g. the mean or the
               sample variance of an empty series, or `0/0`);
* `inf`      — a floating-point infinity is returned (division of a nonzero
               float by `0.0`);
* `raised`   — a Python exception escapes (`ZeroDivisionError` from
               `252/len(data)` with an empty frame, the `ValueError` of
               `idxmin` on an empty column, the error `np.percentile`
               raises on an empty array or an out-of-range level).
Numbers themselves are idealized as exact rationals (reals where a real
power or square root occurs), so floating-point rounding is outside the
model; NaN/infinity production points are modelled exactly.
-/

namespace Risquanta

/-- The four observable ways a `RiskEngine` method can end. -/
inductive Outcome (α : Type) where
  | ok : α → Outcome α
  | nan : Outcome α
  | inf : Outcome α
  | raised : Outcome α
deriving DecidableEq

/-- The date-indexed price table: `(date, Adj Close)` rows, dates ascending. -/
abbrev Store := List (ℤ × ℚ)

/-- Pandas `df.loc[start:end]` on a sorted date index: the rows whose date
lies in the inclusive window `[s, e]` (empty when `s > e`). -/
def sliceRange (df : Store) (s e : ℤ) : Store :=
  df.filter (fun x => s ≤ x.1 ∧ x.1 ≤ e)

/-- `Series.pct_change` without its leading missing entry:
`return[i] = price[i+1]/price[i] - 1`. -/
def pct_change (ps : List ℚ) : List ℚ :=
  List.zipWith (fun a b => b / a - 1) ps ps.tail

/-- The return series derived from a slice: `pct_change` on the price column
followed by `dropna` (which removes exactly the first row). -/
def returnsOf (data : Store) : List ℚ :=
  pct_change (data.map Prod.snd)

/-- Arithmetic mean, as `Series.mean` on a series without missing values. -/
def mean (l : List ℚ) : ℚ := l.sum / l.length

/-- Sample variance with the pandas default `ddof = 1` denominator. -/
def sampleVar (l : List ℚ) : ℚ :=
  (l.map (fun x => (x - mean l) ^ 2)).sum / ((l.length : ℚ) - 1)

/-- Population second central moment `m2` (scipy moment with `bias=True`). -/
def popVar (l : List ℚ) : ℚ :=
  (l.map (fun x => (x - mean l) ^ 2)).sum / l.length

/-- Population third central moment `m3` (scipy moment with `bias=True`). -/
def popM3 (l : List ℚ) : ℚ :=
  (l.map (fun x => (x - mean l) ^ 3)).sum / l.length

/-- Maximum of a list of rationals (meaningful on nonempty lists). -/
def listMax : List ℚ → ℚ
  | [] => 0
  | x :: xs => xs.foldl max x

/-- Minimum of a list of rationals (meaningful on nonempty lists). -/
def listMin : List ℚ → ℚ
  | [] => 0
  | x :: xs => xs.foldl min x

/-- Index of the first occurrence of `x`, as `Series.idxmin` ties are
resolved: pandas returns the label of the first minimal entry. -/
def firstIdxOf (x : ℚ) : List ℚ → ℕ
  | [] => 0
  | y :: ys => if y = x then 0 else firstIdxOf x ys + 1

/-- `rolling(window, min_periods=1).max()` at position `i`: the maximum of
the trailing window `ps[i+1-w .. i]`, shrinking at the head of the series. -/
def trailMax (w : ℕ) (ps : List ℚ) (i : ℕ) : ℚ :=
  listMax ((ps.take (i + 1)).drop (i + 1 - w))

/-- The `daily_dd` column: `dd[i] = p[i] / roll_max[i] - 1`. -/
def ddOf (w : ℕ) (ps : List ℚ) : List ℚ :=
  (List.range ps.length).map (fun i => ps.getD i 0 / trailMax w ps i - 1)

/-- `RiskEngine.max_drawdown`: slice, rolling max with `min_periods=1`,
drawdown column, then `(min, idxmin)`.  A zero window makes `rolling`
raise, and `idxmin` raises on an empty column. -/
def max_drawdown (df : Store) (s e : ℤ) (w : ℕ) : Outcome (ℚ × ℤ) :=
  if w = 0 then .raised
  else
    let data := sliceRange df s e
    let dd := ddOf w (data.map Prod.snd)
    if dd.length = 0 then .raised
    else .ok (listMin dd, (data.map Prod.fst).getD (firstIdxOf (listMin dd) dd) 0)

/-- Core of `RiskEngine.annualized_performance` on the derived returns:
`np.prod(1 + r) ** (252 / len(data)) - 1`; with an empty return series the
exponent `252 / 0` raises `ZeroDivisionError`. -/
noncomputable def annualized_of (r : List ℚ) : Outcome ℝ :=
  if r.length = 0 then .raised
  else .ok ((((r.map (fun x => 1 + x)).prod : ℚ) : ℝ) ^ ((252 : ℝ) / (r.length : ℝ)) - 1)

/-- `RiskEngine.annualized_performance`. -/
noncomputable def annualized_performance (df : Store) (s e : ℤ) : Outcome ℝ :=
  annualized_of (returnsOf (sliceRange df s e))

/-- The ascending sort `np.percentile` performs on its input. -/
def sortedOf (l : List ℚ) : List ℚ :=
  List.insertionSort (fun a b => a ≤ b) l

/-- The fractional position `lev/100 * (m - 1)` of the requested percentile
among the `m` order statistics. -/
def posOf (l : List ℚ) (lev : ℚ) : ℚ :=
  lev * (((sortedOf l).length : ℚ) - 1) / 100

/-- The integer part of the fractional position. -/
def idxOf (l : List ℚ) (lev : ℚ) : ℕ :=
  (Int.floor (posOf l lev)).toNat

/-- `np.percentile(a, lev)` with the default linear interpolation: with `a`
sorted, the value at fractional position `pos = lev/100 * (m - 1)`, linearly
interpolated between the order statistics at `⌊pos⌋` and `⌊pos⌋ + 1`. -/
def percentile (l : List ℚ) (lev : ℚ) : ℚ :=
  match (sortedOf l)[idxOf l lev]?, (sortedOf l)[idxOf l lev + 1]? with
  | some a, some b => a + (posOf l lev - (idxOf l lev : ℚ)) * (b - a)
  | some a, none => a
  | none, _ => 0

/-- Core of `RiskEngine.var_historical`: `np.percentile` raises on a level
outside `[0, 100]` and on an empty array. -/
def var_of (r : List ℚ) (lev : ℚ) : Outcome ℚ :=
  if lev < 0 ∨ 100 < lev then .raised
  else if r.length = 0 then .raised
  else .ok (percentile r lev)

/-- `RiskEngine.var_historical`. -/
def var_historical (df : Store) (s e : ℤ) (lev : ℚ) : Outcome ℚ :=
  var_of (returnsOf (sliceRange df s e)) lev

/-- Core of `RiskEngine.cvar_historical`: the mean of the returns at or
below the `np.percentile` value; the mean of an empty selection is NaN. -/
def cvar_of (r : List ℚ) (lev : ℚ) : Outcome ℚ :=
  if lev < 0 ∨ 100 < lev then .raised
  else if r.length = 0 then .raised
  else
    let v := percentile r lev
    let tail := r.filter (fun x => x ≤ v)
    if tail.length = 0 then .nan
    else .ok (tail.sum / tail.length)

/-- `RiskEngine.cvar_historical`. -/
def cvar_historical (df : Store) (s e : ℤ) (lev : ℚ) : Outcome ℚ :=
  cvar_of (returnsOf (sliceRange df s e)) lev

/-- Core of `RiskEngine.semi_deviation`: `sqrt` of the `ddof = 1` variance
of the strictly negative returns; pandas `var` of fewer than two values is
NaN and `np.sqrt(nan)` is NaN (no exception is raised). -/
noncomputable def semi_of (r : List ℚ) : Outcome ℝ :=
  let neg := r.filter (fun x => x < 0)
  if neg.length < 2 then .nan
  else .ok (Real.sqrt (sampleVar neg))

/-- `RiskEngine.semi_deviation` (the comparison `r < 0` drops the missing
leading entry exactly as `dropna` would). -/
noncomputable def semi_deviation (df : Store) (s e : ℤ) : Outcome ℝ :=
  semi_of (returnsOf (sliceRange df s e))

/-- Core of `RiskEngine.information_ratio`:
`mean(r)*252 / (std(r)*sqrt(252))` with skip-NaN mean and `ddof = 1` std.
With fewer than two returns the std (or the mean) is NaN; with zero std the
float division yields NaN (zero mean) or an infinity (nonzero mean). -/
noncomputable def info_of (r : List ℚ) : Outcome ℝ :=
  if r.length < 2 then .nan
  else if sampleVar r = 0 then (if mean r = 0 then .nan else .inf)
  else .ok (((mean r : ℝ) * 252) / (Real.sqrt (sampleVar r) * Real.sqrt 252))

/-- `RiskEngine.information_ratio`. -/
noncomputable def information_ratio (df : Store) (s e : ℤ) : Outcome ℝ :=
  info_of (returnsOf (sliceRange df s e))

/-- Core of `RiskEngine.skewness`: `scipy.stats.skew` with the default
`bias=True`, i.e. `g1 = m3 / m2**1.5` with population moments; an empty
series or a zero `m2` produces NaN (`0/0`), not an exception. -/
noncomputable def skew_of (r : List ℚ) : Outcome ℝ :=
  if r.length = 0 then .nan
  else if popVar r = 0 then .nan
  else .ok ((popM3 r : ℝ) / Real.sqrt (popVar r) ^ 3)

/-- `RiskEngine.skewness`. -/
noncomputable def skewness (df : Store) (s e : ℤ) : Outcome ℝ :=
  skew_of (returnsOf (sliceRange df s e))

/-- Core of `RiskEngine.omega_ratio`:
`mean(r > t) / abs(mean(r <= t))`.  An empty side makes its mean NaN and the
whole expression NaN; a zero downside mean gives `x/0.0`, an infinity for
nonzero `x` and NaN for `x = 0`. -/
def omega_of (r : List ℚ) (threshold : ℚ) : Outcome ℚ :=
  let up := r.filter (fun x => threshold < x)
  let dn := r.filter (fun x => x ≤ threshold)
  if up.length = 0 ∨ dn.length = 0 then .nan
  else if mean dn = 0 then (if mean up = 0 then .nan else .inf)
  else .ok (mean up / |mean dn|)

/-- `RiskEngine.omega_ratio`. -/
def omega_ratio (df : Store) (s e : ℤ) (threshold : ℚ) : Outcome ℚ :=
  omega_of (returnsOf (sliceRange df s e)) threshold

/-! ### Helper lemmas about the list primitives -/

theorem foldl_min_le_init (xs : List ℚ) (a : ℚ) : xs.foldl min a ≤ a := by
  induction xs generalizing a with
  | nil => exact le_refl a
  | cons y ys ih =>
    calc (y :: ys).foldl min a = ys.foldl min (min a y) := rfl
    _ ≤ min a y := ih (min a y)
    _ ≤ a := min_le_left a y

theorem foldl_min_le_mem (xs : List ℚ) (a x : ℚ) (hx : x ∈ xs) : xs.foldl min a ≤ x := by
  induction xs generalizing a with
  | nil => cases hx
  | cons y ys ih =>
    rcases List.mem_cons.mp hx with rfl | hmem
    · calc (x :: ys).foldl min a = ys.foldl min (min a x) := rfl
      _ ≤ min a x := foldl_min_le_init ys (min a x)
      _ ≤ x := min_le_right a x
    · exact ih (min a y) hmem

theorem foldl_min_mem (xs : List ℚ) (a : ℚ) : xs.foldl min a = a ∨ xs.foldl min a ∈ xs := by
  induction xs generalizing a with
  | nil => exact Or.inl rfl
  | cons y ys ih =>
    rcases ih (min a y) with h | h
    · rcases min_choice a y with hmin | hmin
      · exact Or.inl (by rw [List.foldl_cons, h, hmin])
      · exact Or.inr (by rw [List.foldl_cons, h, hmin]; exact List.mem_cons_self y ys)
    · exact Or.inr (List.mem_cons_of_mem y h)

theorem listMin_le (l : List ℚ) (x : ℚ) (hx : x ∈ l) : listMin l ≤ x := by
  cases l with
  | nil => cases hx
  | cons y ys =>
    rcases List.mem_cons.mp hx with rfl | hmem
    · exact foldl_min_le_init ys x
    · exact foldl_min_le_mem ys y x hmem

theorem listMin_mem (l : List ℚ) (hne : l ≠ []) : listMin l ∈ l := by
  cases l with
  | nil => exact absurd rfl hne
  | cons y ys =>
    rcases foldl_min_mem ys y with h | h
    · rw [listMin, h]; exact List.mem_cons_self y ys
    · exact List.mem_cons_of_mem y h

theorem le_foldl_max_init (xs : List ℚ) (a : ℚ) : a ≤ xs.foldl max a := by
  induction xs generalizing a with
  | nil => exact le_refl a
  | cons y ys ih =>
    calc a ≤ max a y := le_max_left a y
    _ ≤ ys.foldl max (max a y) := ih (max a y)
    _ = (y :: ys).foldl max a := rfl

theorem le_foldl_max_mem (xs : List ℚ) (a x : ℚ) (hx : x ∈ xs) : x ≤ xs.foldl max a := by
  induction xs generalizing a with
  | nil => cases hx
  | cons y ys ih =>
    rcases List.mem_cons.mp hx with rfl | hmem
    · calc x ≤ max a x := le_max_right a x
      _ ≤ ys.foldl max (max a x) := le_foldl_max_init ys (max a x)
      _ = (x :: ys).foldl max a := rfl
    · exact ih (max a y) hmem

theorem foldl_max_mem (xs : List ℚ) (a : ℚ) : xs.foldl max a = a ∨ xs.foldl max a ∈ xs := by
  induction xs generalizing a with
  | nil => exact Or.inl rfl
  | cons y ys ih =>
    rcases ih (max a y) with h | h
    · rcases max_choice a y with hmax | hmax
      · exact Or.inl (by rw [List.foldl_cons, h, hmax])
      · exact Or.inr (by rw [List.foldl_cons, h, hmax]; exact List.mem_cons_self y ys)
    · exact Or.inr (List.mem_cons_of_mem y h)

theorem le_listMax (l : List ℚ) (x : ℚ) (hx : x ∈ l) : x ≤ listMax l := by
  cases l with
  | nil => cases hx
  | cons y ys =>
    rcases List.mem_cons.mp hx with rfl | hmem
    · exact le_foldl_max_init ys x
    · exact le_foldl_max_mem ys y x hmem

theorem listMax_mem (l : List ℚ) (hne : l ≠ []) : listMax l ∈ l := by
  cases l with
  | nil => exact absurd rfl hne
  | cons y ys =>
    rcases foldl_max_mem ys y with h | h
    · rw [listMax, h]; exact List.mem_cons_self y ys
    · exact List.mem_cons_of_mem y h

theorem listMax_eq_of (l : List ℚ) (m : ℚ) (hm : m ∈ l) (hub : ∀ x ∈ l, x ≤ m) :
    listMax l = m :=
  le_antisymm (hub (listMax l) (listMax_mem l (List.ne_nil_of_mem hm))) (le_listMax l m hm)

theorem firstIdxOf_spec (x : ℚ) (l : List ℚ) (hx : x ∈ l) :
    firstIdxOf x l < l.length ∧ l[firstIdxOf x l]? = some x ∧
      ∀ k, k < firstIdxOf x l → l[k]? ≠ some x := by
  induction l with
  | nil => cases hx
  | cons y ys ih =>
    by_cases hyx : y = x
    · refine ⟨?_, ?_, ?_⟩
      · simp [firstIdxOf, hyx]
      · simp [firstIdxOf, hyx]
      · intro k hk
        rw [firstIdxOf, if_pos hyx] at hk
        cases hk
    · have hmem : x ∈ ys := by
        rcases List.mem_cons.mp hx with rfl | h
        · exact absurd rfl hyx
        · exact h
      obtain ⟨h1, h2, h3⟩ := ih hmem
      have hidx : firstIdxOf x (y :: ys) = firstIdxOf x ys + 1 := by
        rw [firstIdxOf, if_neg hyx]
      refine ⟨?_, ?_, ?_⟩
      · rw [hidx]; simpa using Nat.succ_lt_succ h1
      · rw [hidx]; simpa using h2
      · intro k hk
        rw [hidx] at hk
        cases k with
        | zero =>
          simp only [List.getElem?_cons_zero]
          intro hcontra
          exact hyx (Option.some.inj hcontra)
        | succ k =>
          simp only [List.getElem?_cons_succ]
          exact h3 k (Nat.lt_of_succ_lt_succ hk)

theorem ddOf_length (w : ℕ) (ps : List ℚ) : (ddOf w ps).length = ps.length := by
  simp [ddOf]

theorem ddOf_get (w : ℕ) (ps : List ℚ) (i : ℕ) (h : i < ps.length) :
    (ddOf w ps)[i]? = some (ps.getD i 0 / trailMax w ps i - 1) := by
  simp [ddOf, List.getElem?_range h]

theorem getD_mem_window (w : ℕ) (ps : List ℚ) (i : ℕ) (hw : 1 ≤ w) (h : i < ps.length) :
    ps.getD i 0 ∈ (ps.take (i + 1)).drop (i + 1 - w) := by
  apply List.mem_iff_getElem?.mpr
  refine ⟨i - (i + 1 - w), ?_⟩
  rw [List.getElem?_drop]
  have harith : (i + 1 - w) + (i - (i + 1 - w)) = i := by omega
  rw [harith, List.getElem?_take, if_pos (Nat.lt_succ_self i),
    List.getElem?_eq_getElem h, List.getD_eq_getElem?_getD, List.getElem?_eq_getElem h]
  rfl

theorem getD_le_trailMax (w : ℕ) (ps : List ℚ) (i : ℕ) (hw : 1 ≤ w) (h : i < ps.length) :
    ps.getD i 0 ≤ trailMax w ps i :=
  le_listMax _ _ (getD_mem_window w ps i hw h)

theorem trailMax_of_sorted (w : ℕ) (ps : List ℚ) (hs : List.Sorted (fun a b : ℚ => a ≤ b) ps)
    (i : ℕ) (hw : 1 ≤ w) (h : i < ps.length) : trailMax w ps i = ps.getD i 0 := by
  apply listMax_eq_of
  · exact getD_mem_window w ps i hw h
  · intro x hxmem
    have hx2 : x ∈ ps.take (i + 1) := List.mem_of_mem_drop hxmem
    obtain ⟨n, hn⟩ := List.mem_iff_getElem?.mp hx2
    rw [List.getElem?_take] at hn
    by_cases hni : n < i + 1
    · rw [if_pos hni] at hn
      obtain ⟨hnlen, hval⟩ := List.getElem?_eq_some.mp hn
      have hrel : ps.get ⟨n, hnlen⟩ ≤ ps.get ⟨i, h⟩ :=
        hs.rel_get_of_le (by exact Fin.mk_le_mk.mpr (by omega))
      rw [List.getD_eq_getElem?_getD, List.getElem?_eq_getElem h]
      calc x = ps.get ⟨n, hnlen⟩ := by rw [List.get_eq_getElem]; exact hval.symm
      _ ≤ ps.get ⟨i, h⟩ := hrel
      _ = (some ps[i]).getD 0 := rfl
    · rw [if_neg hni] at hn
      cases hn

theorem mean_le_of_le (l : List ℚ) (v : ℚ) (hne : l ≠ []) (h : ∀ x ∈ l, x ≤ v) :
    l.sum / (l.length : ℚ) ≤ v := by
  have hpos : (0 : ℚ) < (l.length : ℚ) := by exact_mod_cast List.length_pos.mpr hne
  rw [div_le_iff₀ hpos]
  have hsum := List.sum_le_card_nsmul l v h
  rw [nsmul_eq_mul] at hsum
  calc l.sum ≤ (l.length : ℚ) * v := hsum
  _ = v * (l.length : ℚ) := mul_comm _ _

theorem mul_length_lt_sum (l : List ℚ) (t : ℚ) (hne : l ≠ []) (h : ∀ x ∈ l, t < x) :
    t * (l.length : ℚ) < l.sum := by
  induction l with
  | nil => exact absurd rfl hne
  | cons y ys ih =>
    rcases eq_or_ne ys [] with rfl | hys
    · simpa using h y (List.mem_cons_self y [])
    · have h1 : t < y := h y (List.mem_cons_self y ys)
      have h2 : t * (ys.length : ℚ) < ys.sum :=
        ih hys (fun x hx => h x (List.mem_cons_of_mem y hx))
      have hcast : ((y :: ys).length : ℚ) = (ys.length : ℚ) + 1 := by
        rw [List.length_cons]; push_cast; ring
      rw [List.sum_cons, hcast]
      nlinarith

theorem lt_mean_of_lt (l : List ℚ) (t : ℚ) (hne : l ≠ []) (h : ∀ x ∈ l, t < x) :
    t < l.sum / (l.length : ℚ) := by
  have hpos : (0 : ℚ) < (l.length : ℚ) := by exact_mod_cast List.length_pos.mpr hne
  rw [lt_div_iff₀ hpos]
  exact mul_length_lt_sum l t hne h

theorem sliceRange_of_gt (df : Store) (s e : ℤ) (h : e < s) : sliceRange df s e = [] := by
  rw [sliceRange, List.filter_eq_nil_iff]
  intro a _
  simp only [decide_eq_true_eq, not_and]
  intro h1 h2
  omega

theorem popVar_nonneg (l : List ℚ) : 0 ≤ popVar l := by
  unfold popVar
  apply div_nonneg
  · apply List.sum_nonneg
    intro x hx
    obtain ⟨y, _, rfl⟩ := List.mem_map.mp hx
    positivity
  · positivity

theorem list_sum_map_div (l : List ℝ) (c : ℝ) :
    (l.map (fun x => x / c)).sum = l.sum / c := by
  induction l with
  | nil => simp
  | cons y ys ih => simp [ih, add_div]

theorem rat_cast_list_sum (l : List ℚ) :
    ((l.sum : ℚ) : ℝ) = (l.map (fun x : ℚ => (x : ℝ))).sum :=
  map_list_sum (Rat.castHom ℝ) l

theorem rat_cast_list_prod (l : List ℚ) :
    ((l.prod : ℚ) : ℝ) = (l.map (fun x : ℚ => (x : ℝ))).prod :=
  map_list_prod (Rat.castHom ℝ) l

theorem popM3_pair (a b : ℚ) : popM3 [a, b] = 0 := by
  unfold popM3 mean
  simp only [List.map_cons, List.map_nil, List.sum_cons, List.sum_nil, List.length_cons,
    List.length_nil]
  push_cast
  ring_nf

theorem sortedOf_perm (l : List ℚ) : (sortedOf l).Perm l :=
  List.perm_insertionSort _ l

theorem sortedOf_sorted (l : List ℚ) : List.Sorted (fun a b : ℚ => a ≤ b) (sortedOf l) :=
  List.sorted_insertionSort _ l

theorem exists_le_percentile (l : List ℚ) (lev : ℚ) (hne : l ≠ []) (h0 : 0 ≤ lev)
    (h100 : lev ≤ 100) : ∃ x ∈ l, x ≤ percentile l lev := by
  have hlen : (sortedOf l).length = l.length := (sortedOf_perm l).length_eq
  have hlen1 : 0 < l.length := List.length_pos.mpr hne
  have hpos0 : 0 ≤ posOf l lev := by
    unfold posOf
    apply div_nonneg _ (by norm_num)
    apply mul_nonneg h0
    rw [hlen, sub_nonneg]
    exact_mod_cast hlen1
  have hposle : posOf l lev ≤ ((sortedOf l).length : ℚ) - 1 := by
    unfold posOf
    rw [div_le_iff₀ (by norm_num : (0:ℚ) < 100)]
    have hnn : (0:ℚ) ≤ ((sortedOf l).length : ℚ) - 1 := by
      rw [hlen, sub_nonneg]; exact_mod_cast hlen1
    calc lev * (((sortedOf l).length : ℚ) - 1)
        ≤ 100 * (((sortedOf l).length : ℚ) - 1) := mul_le_mul_of_nonneg_right h100 hnn
    _ = (((sortedOf l).length : ℚ) - 1) * 100 := mul_comm _ _
  have hidxle : (idxOf l lev : ℚ) ≤ posOf l lev := by
    unfold idxOf
    have hfl : (0:ℤ) ≤ Int.floor (posOf l lev) := Int.floor_nonneg.mpr hpos0
    have htn : ((Int.floor (posOf l lev)).toNat : ℤ) = Int.floor (posOf l lev) :=
      Int.toNat_of_nonneg hfl
    have hcast : ((Int.floor (posOf l lev)).toNat : ℚ) = ((Int.floor (posOf l lev) : ℤ) : ℚ) := by
      exact_mod_cast congrArg (fun z : ℤ => (z : ℚ)) htn
    rw [hcast]
    exact Int.floor_le _
  have hi_lt : idxOf l lev < (sortedOf l).length := by
    have h2 : ((idxOf l lev : ℕ) : ℚ) < ((sortedOf l).length : ℚ) := by
      have := le_trans hidxle hposle
      linarith
    exact_mod_cast h2
  have hgeti : (sortedOf l)[idxOf l lev]? = some ((sortedOf l).getD (idxOf l lev) 0) := by
    rw [List.getD_eq_getElem?_getD, List.getElem?_eq_getElem hi_lt]
    rfl
  have hamem : (sortedOf l).getD (idxOf l lev) 0 ∈ l :=
    (sortedOf_perm l).subset (List.mem_iff_getElem?.mpr ⟨idxOf l lev, hgeti⟩)
  refine ⟨(sortedOf l).getD (idxOf l lev) 0, hamem, ?_⟩
  unfold percentile
  cases hb : (sortedOf l)[idxOf l lev + 1]? with
  | none => rw [hgeti]
  | some b =>
    rw [hgeti]
    have hfrac : 0 ≤ posOf l lev - (idxOf l lev : ℚ) := by linarith
    have hab : (sortedOf l).getD (idxOf l lev) 0 ≤ b := by
      obtain ⟨hlt2, hval⟩ := List.getElem?_eq_some.mp hb
      have hrel : (sortedOf l).get ⟨idxOf l lev, hi_lt⟩ ≤ (sortedOf l).get ⟨idxOf l lev + 1, hlt2⟩ :=
        (sortedOf_sorted l).rel_get_of_le (Fin.mk_le_mk.mpr (Nat.le_succ _))
      rw [List.getD_eq_getElem?_getD, List.getElem?_eq_getElem hi_lt]
      calc (some (sortedOf l)[idxOf l lev]).getD 0 = (sortedOf l).get ⟨idxOf l lev, hi_lt⟩ := rfl
      _ ≤ (sortedOf l).get ⟨idxOf l lev + 1, hlt2⟩ := hrel
      _ = b := by rw [List.get_eq_getElem]; exact hval
    show (sortedOf l).getD (idxOf l lev) 0 ≤
      (sortedOf l).getD (idxOf l lev) 0 +
        (posOf l lev - (idxOf l lev : ℚ)) * (b - (sortedOf l).getD (idxOf l lev) 0)
    nlinarith

/-! ### Concrete stores used as test inputs -/

/-- The spec's drawdown scenario: prices `[100, 90, 95, 80, 120]`. -/
def exC1 : Store := [(0, 100), (1, 90), (2, 95), (3, 80), (4, 120)]

/-- A price path attaining its minimal drawdown twice (at indices 1 and 3). -/
def exTie : Store := [(0, 100), (1, 80), (2, 100), (3, 80)]

/-- Prices `[100, 110, 121]`, giving returns `[1/10, 1/10]`. -/
def exGrow : Store := [(0, 100), (1, 110), (2, 121)]

/-- Prices whose derived returns are `[-0.05, -0.02, 0, 0.01, 0.03]`. -/
def exVar : Store :=
  [(0, 100), (1, 95), (2, 931/10), (3, 931/10), (4, 94031/1000), (5, 9685193/100000)]

/-- Prices `[100, 110, 132]`, giving two distinct returns `[1/10, 1/5]`. -/
def exSkew : Store := [(0, 100), (1, 110), (2, 132)]

/-- Prices `[100, 50, 5]`, giving returns `[-1/2, -9/10]`. -/
def exOmegaNeg : Store := [(0, 100), (1, 50), (2, 5)]

/-- Prices `[100, 110, 110]`, giving returns `[1/10, 0]`. -/
def exOmegaInf : Store := [(0, 100), (1, 110), (2, 110)]

/-- Prices `[100, 90, 110]`, giving returns `[-1/10, 2/9]`. -/
def exOmegaPos : Store := [(0, 100), (1, 90), (2, 110)]

/-- Prices `[100, 90, 99]`, giving exactly one negative return. -/
def exOneNeg : Store := [(0, 100), (1, 90), (2, 99)]

/-! ### Shared shape lemma for `max_drawdown` -/

theorem max_drawdown_eq_ok (df : Store) (s e : ℤ) (w : ℕ) (hw : 1 ≤ w)
    (hne : sliceRange df s e ≠ []) :
    max_drawdown df s e w =
      .ok (listMin (ddOf w ((sliceRange df s e).map Prod.snd)),
        ((sliceRange df s e).map Prod.fst).getD
          (firstIdxOf (listMin (ddOf w ((sliceRange df s e).map Prod.snd)))
            (ddOf w ((sliceRange df s e).map Prod.snd))) 0) := by
  have hw0 : ¬ w = 0 := by omega
  have hlenne : ¬ (ddOf w ((sliceRange df s e).map Prod.snd)).length = 0 := by
    rw [ddOf_length, List.length_map]
    intro hc
    exact hne (List.length_eq_zero.mp hc)
  simp only [max_drawdown, if_neg hw0, if_neg hlenne]

/-! ### The claims -/

/-- C1: for every nonempty price slice and window `w ≥ 1`, `max_drawdown`
computes `dd i = p i / (max of the trailing window of size w) - 1` pointwise,
and returns the pair of the minimum of `dd` together with the date at the
first index attaining that minimum. -/
theorem max_drawdown_spec (df : Store) (s e : ℤ) (w : ℕ) (hw : 1 ≤ w)
    (hne : sliceRange df s e ≠ []) :
    ∃ j m,
      j < (sliceRange df s e).length ∧
      (ddOf w ((sliceRange df s e).map Prod.snd))[j]? = some m ∧
      (∀ x ∈ ddOf w ((sliceRange df s e).map Prod.snd), m ≤ x) ∧
      (∀ k, k < j → (ddOf w ((sliceRange df s e).map Prod.snd))[k]? ≠ some m) ∧
      (∀ i, i < (sliceRange df s e).length →
        (ddOf w ((sliceRange df s e).map Prod.snd))[i]? =
          some (((sliceRange df s e).map Prod.snd).getD i 0 /
            listMax ((((sliceRange df s e).map Prod.snd).take (i + 1)).drop (i + 1 - w)) - 1)) ∧
      max_drawdown df s e w =
        .ok (m, ((sliceRange df s e).map Prod.fst).getD j 0) := by
  have hlen1 : ((sliceRange df s e).map Prod.snd).length = (sliceRange df s e).length :=
    List.length_map _ _
  have hddne : ddOf w ((sliceRange df s e).map Prod.snd) ≠ [] := by
    intro hc
    apply hne
    have hc2 : (ddOf w ((sliceRange df s e).map Prod.snd)).length = 0 := by rw [hc]; rfl
    rw [ddOf_length, hlen1] at hc2
    exact List.length_eq_zero.mp hc2
  have hminmem := listMin_mem _ hddne
  obtain ⟨hjlt, hjget, hjfirst⟩ := firstIdxOf_spec _ _ hminmem
  refine ⟨_, _, ?_, hjget, ?_, hjfirst, ?_, max_drawdown_eq_ok df s e w hw hne⟩
  · rw [ddOf_length, hlen1] at hjlt
    exact hjlt
  · intro x hx
    exact listMin_le _ x hx
  · intro i hi
    have hi2 : i < ((sliceRange df s e).map Prod.snd).length := by rw [hlen1]; exact hi
    simpa [trailMax] using ddOf_get w _ i hi2

/-- C1 witness: the spec scenario `[100, 90, 95, 80, 120]` with windows 4
and 5, and an explicit tie broken at the earliest index. -/
theorem max_drawdown_spec_witness :
    (∃ j m,
      j < (sliceRange exC1 0 10).length ∧
      (ddOf 4 ((sliceRange exC1 0 10).map Prod.snd))[j]? = some m ∧
      (∀ x ∈ ddOf 4 ((sliceRange exC1 0 10).map Prod.snd), m ≤ x) ∧
      (∀ k, k < j → (ddOf 4 ((sliceRange exC1 0 10).map Prod.snd))[k]? ≠ some m) ∧
      (∀ i, i < (sliceRange exC1 0 10).length →
        (ddOf 4 ((sliceRange exC1 0 10).map Prod.snd))[i]? =
          some (((sliceRange exC1 0 10).map Prod.snd).getD i 0 /
            listMax ((((sliceRange exC1 0 10).map Prod.snd).take (i + 1)).drop (i + 1 - 4)) - 1)) ∧
      max_drawdown exC1 0 10 4 =
        .ok (m, ((sliceRange exC1 0 10).map Prod.fst).getD j 0)) ∧
    ddOf 4 ((sliceRange exC1 0 10).map Prod.snd) = [0, -1/10, -1/20, -1/5, 0] ∧
    max_drawdown exC1 0 10 4 = .ok (-1/5, 3) ∧
    max_drawdown exC1 0 10 5 = .ok (-1/5, 3) ∧
    max_drawdown exTie 0 10 4 = .ok (-1/5, 1) := by
  refine ⟨max_drawdown_spec exC1 0 10 4 (by omega) (by decide), ?_, ?_, ?_, ?_⟩
  · norm_num [ddOf, trailMax, listMax, exC1, sliceRange, List.range_succ]
  · norm_num [max_drawdown, exC1, sliceRange, ddOf, trailMax, listMax, listMin, firstIdxOf,
      List.range_succ]
  · norm_num [max_drawdown, exC1, sliceRange, ddOf, trailMax, listMax, listMin, firstIdxOf,
      List.range_succ]
  · norm_num [max_drawdown, exTie, sliceRange, ddOf, trailMax, listMax, listMin, firstIdxOf,
      List.range_succ]

/-- C7: with positive prices (the data-model invariant) and `w ≥ 1`, the
drawdown value `max_drawdown` returns is at most 0, and it is exactly 0
when the sliced price path is monotonically non-decreasing. -/
theorem max_drawdown_nonpos (df : Store) (s e : ℤ) (w : ℕ) (hw : 1 ≤ w)
    (hpos : ∀ x ∈ sliceRange df s e, 0 < x.2) (hne : sliceRange df s e ≠ []) :
    ∃ m d, max_drawdown df s e w = .ok (m, d) ∧ m ≤ 0 ∧
      (List.Sorted (fun a b : ℚ => a ≤ b) ((sliceRange df s e).map Prod.snd) → m = 0) := by
  have hpspos : ∀ x ∈ (sliceRange df s e).map Prod.snd, 0 < x := by
    intro x hx
    obtain ⟨y, hy, rfl⟩ := List.mem_map.mp hx
    exact hpos y hy
  have hgetpos : ∀ i, i < ((sliceRange df s e).map Prod.snd).length →
      0 < ((sliceRange df s e).map Prod.snd).getD i 0 := by
    intro i hi
    have hmem : ((sliceRange df s e).map Prod.snd).getD i 0 ∈ (sliceRange df s e).map Prod.snd := by
      rw [List.getD_eq_getElem?_getD, List.getElem?_eq_getElem hi]
      exact List.getElem_mem hi
    exact hpspos _ hmem
  have hddne : ddOf w ((sliceRange df s e).map Prod.snd) ≠ [] := by
    intro hc
    apply hne
    have hc2 : (ddOf w ((sliceRange df s e).map Prod.snd)).length = 0 := by rw [hc]; rfl
    rw [ddOf_length, List.length_map] at hc2
    exact List.length_eq_zero.mp hc2
  have hddval : ∀ x ∈ ddOf w ((sliceRange df s e).map Prod.snd),
      ∃ i, i < ((sliceRange df s e).map Prod.snd).length ∧
        x = ((sliceRange df s e).map Prod.snd).getD i 0 /
          trailMax w ((sliceRange df s e).map Prod.snd) i - 1 := by
    intro x hx
    obtain ⟨i, hi⟩ := List.mem_iff_getElem?.mp hx
    obtain ⟨hlt, _⟩ := List.getElem?_eq_some.mp hi
    rw [ddOf_length] at hlt
    rw [ddOf_get w _ i hlt] at hi
    exact ⟨i, hlt, (Option.some.inj hi).symm⟩
  have hddle : ∀ x ∈ ddOf w ((sliceRange df s e).map Prod.snd), x ≤ 0 := by
    intro x hx
    obtain ⟨i, hlt, rfl⟩ := hddval x hx
    have hp := hgetpos i hlt
    have ht := getD_le_trailMax w _ i hw hlt
    have htpos : 0 < trailMax w ((sliceRange df s e).map Prod.snd) i := lt_of_lt_of_le hp ht
    have hdiv : ((sliceRange df s e).map Prod.snd).getD i 0 /
        trailMax w ((sliceRange df s e).map Prod.snd) i ≤ 1 := (div_le_one htpos).mpr ht
    linarith
  refine ⟨_, _, max_drawdown_eq_ok df s e w hw hne, ?_, ?_⟩
  · exact hddle _ (listMin_mem _ hddne)
  · intro hmono
    have hddzero : ∀ x ∈ ddOf w ((sliceRange df s e).map Prod.snd), x = 0 := by
      intro x hx
      obtain ⟨i, hlt, rfl⟩ := hddval x hx
      rw [trailMax_of_sorted w _ hmono i hw hlt,
        div_self (ne_of_gt (hgetpos i hlt))]
      ring
    exact hddzero _ (listMin_mem _ hddne)

/-- C7 witness: the drawdown of the spec scenario is negative but at most 0,
and a non-decreasing path `[100, 110, 121]` has drawdown exactly 0. -/
theorem max_drawdown_nonpos_witness :
    (∃ m d, max_drawdown exGrow 0 10 2 = .ok (m, d) ∧ m ≤ 0 ∧
      (List.Sorted (fun a b : ℚ => a ≤ b) ((sliceRange exGrow 0 10).map Prod.snd) → m = 0)) ∧
    max_drawdown exGrow 0 10 2 = .ok (0, 0) := by
  constructor
  · apply max_drawdown_nonpos exGrow 0 10 2 (by omega)
    · intro x hx
      have hslice : sliceRange exGrow 0 10 = exGrow := by decide
      rw [hslice] at hx
      simp only [exGrow, List.mem_cons, List.not_mem_nil, or_false] at hx
      rcases hx with rfl | rfl | rfl <;> norm_num
    · decide
  · norm_num [max_drawdown, exGrow, sliceRange, ddOf, trailMax, listMax, listMin, firstIdxOf,
      List.range_succ]

/-- C2: with at least one derived return, `annualized_performance` returns
`prod (1 + r i) ^ (252 / m) - 1`; with an empty return series it fails
(the `252 / len` exponent raises); and the `[0.10, 0.10]` scenario gives
`(1.10 * 1.10) ^ (252 / 2) - 1`. -/
theorem annualized_performance_spec :
    (∀ (df : Store) (s e : ℤ), returnsOf (sliceRange df s e) ≠ [] →
      annualized_performance df s e =
        .ok (((returnsOf (sliceRange df s e)).map (fun x : ℚ => 1 + (x : ℝ))).prod
          ^ ((252 : ℝ) / ((returnsOf (sliceRange df s e)).length : ℝ)) - 1)) ∧
    (∀ (df : Store) (s e : ℤ), returnsOf (sliceRange df s e) = [] →
      annualized_performance df s e = .raised) ∧
    annualized_performance exGrow 0 10 =
      .ok (((11/10 : ℝ) * (11/10)) ^ ((252 : ℝ) / (2 : ℝ)) - 1) := by
  refine ⟨?_, ?_, ?_⟩
  · intro df s e hne
    have hlen : ¬ (returnsOf (sliceRange df s e)).length = 0 :=
      fun hc => hne (List.length_eq_zero.mp hc)
    have hcast : ((((returnsOf (sliceRange df s e)).map (fun x => 1 + x)).prod : ℚ) : ℝ) =
        ((returnsOf (sliceRange df s e)).map (fun x : ℚ => 1 + (x : ℝ))).prod := by
      rw [rat_cast_list_prod, List.map_map]
      simp only [Function.comp_def, Rat.cast_add, Rat.cast_one]
    simp only [annualized_performance, annualized_of, if_neg hlen, hcast]
  · intro df s e hnil
    simp [annualized_performance, annualized_of, hnil]
  · norm_num [annualized_performance, annualized_of, exGrow, sliceRange, returnsOf, pct_change]

/-- C2 witness: the `[1/10, 1/10]` return series of `exGrow` is nonempty and
the formula instance holds there. -/
theorem annualized_performance_spec_witness :
    returnsOf (sliceRange exGrow 0 10) ≠ [] ∧
    annualized_performance exGrow 0 10 =
      .ok (((returnsOf (sliceRange exGrow 0 10)).map (fun x : ℚ => 1 + (x : ℝ))).prod
        ^ ((252 : ℝ) / ((returnsOf (sliceRange exGrow 0 10)).length : ℝ)) - 1) :=
  ⟨by decide, annualized_performance_spec.1 exGrow 0 10 (by decide)⟩

/-- C3: with at least one derived return and a level in `(0, 100)`,
`var_historical` returns the interpolated percentile of the return series;
with no returns it fails; and the spec scenario returns third-lowest data:
level 20 on `[-0.05, -0.02, 0, 0.01, 0.03]` gives `-0.026`. -/
theorem var_historical_spec :
    (∀ (df : Store) (s e : ℤ) (lev : ℚ), 0 < lev → lev < 100 →
      returnsOf (sliceRange df s e) ≠ [] →
      var_historical df s e lev = .ok (percentile (returnsOf (sliceRange df s e)) lev)) ∧
    (∀ (df : Store) (s e : ℤ) (lev : ℚ), 0 < lev → lev < 100 →
      returnsOf (sliceRange df s e) = [] → var_historical df s e lev = .raised) ∧
    returnsOf (sliceRange exVar 0 10) = [-1/20, -1/50, 0, 1/100, 3/100] ∧
    var_historical exVar 0 10 20 = .ok (-13/500) := by
  refine ⟨?_, ?_, ?_, ?_⟩
  · intro df s e lev h0 h100 hne
    have hcond : ¬ (lev < 0 ∨ 100 < lev) := by
      push_neg
      constructor <;> linarith
    have hlen : ¬ (returnsOf (sliceRange df s e)).length = 0 :=
      fun hc => hne (List.length_eq_zero.mp hc)
    simp only [var_historical, var_of, if_neg hcond, if_neg hlen]
  · intro df s e lev h0 h100 hnil
    have hcond : ¬ (lev < 0 ∨ 100 < lev) := by
      push_neg
      constructor <;> linarith
    simp [var_historical, var_of, if_neg hcond, hnil]
  · norm_num [returnsOf, sliceRange, pct_change, exVar]
  · norm_num [var_historical, var_of, exVar, sliceRange, returnsOf, pct_change, percentile,
      sortedOf, posOf, idxOf, List.insertionSort, List.orderedInsert]

/-- C3 witness: the general formula applied to the concrete scenario store. -/
theorem var_historical_spec_witness :
    (0 : ℚ) < 20 ∧ (20 : ℚ) < 100 ∧ returnsOf (sliceRange exVar 0 10) ≠ [] ∧
    var_historical exVar 0 10 20 = .ok (percentile (returnsOf (sliceRange exVar 0 10)) 20) :=
  ⟨by norm_num, by norm_num, by decide,
    var_historical_spec.1 exVar 0 10 20 (by norm_num) (by norm_num) (by decide)⟩

/-- C4: for a nonempty derived return series and a level in `(0, 50)`, both
`cvar_historical` and `var_historical` succeed and the tail mean is at most
the percentile value. -/
theorem cvar_le_var (df : Store) (s e : ℤ) (lev : ℚ) (h0 : 0 < lev) (h50 : lev < 50)
    (hne : returnsOf (sliceRange df s e) ≠ []) :
    ∃ c v, cvar_historical df s e lev = .ok c ∧ var_historical df s e lev = .ok v ∧ c ≤ v := by
  have hcond : ¬ (lev < 0 ∨ 100 < lev) := by
    push_neg
    constructor <;> linarith
  have hlen : ¬ (returnsOf (sliceRange df s e)).length = 0 :=
    fun hc => hne (List.length_eq_zero.mp hc)
  obtain ⟨x, hxmem, hxle⟩ :=
    exists_le_percentile (returnsOf (sliceRange df s e)) lev hne (le_of_lt h0) (by linarith)
  have hxtail : x ∈ (returnsOf (sliceRange df s e)).filter
      (fun y => y ≤ percentile (returnsOf (sliceRange df s e)) lev) :=
    List.mem_filter.mpr ⟨hxmem, decide_eq_true hxle⟩
  have htailne : ((returnsOf (sliceRange df s e)).filter
      (fun y => y ≤ percentile (returnsOf (sliceRange df s e)) lev)) ≠ [] :=
    List.ne_nil_of_mem hxtail
  have htaillen : ¬ ((returnsOf (sliceRange df s e)).filter
      (fun y => y ≤ percentile (returnsOf (sliceRange df s e)) lev)).length = 0 :=
    fun hc => htailne (List.length_eq_zero.mp hc)
  refine ⟨((returnsOf (sliceRange df s e)).filter
      (fun y => y ≤ percentile (returnsOf (sliceRange df s e)) lev)).sum /
        ((((returnsOf (sliceRange df s e)).filter
          (fun y => y ≤ percentile (returnsOf (sliceRange df s e)) lev)).length : ℕ) : ℚ),
    percentile (returnsOf (sliceRange df s e)) lev, ?_, ?_, ?_⟩
  · simp only [cvar_historical, cvar_of, if_neg hcond, if_neg hlen, if_neg htaillen]
  · simp only [var_historical, var_of, if_neg hcond, if_neg hlen]
  · apply mean_le_of_le _ _ htailne
    intro y hy
    exact of_decide_eq_true ((List.mem_filter.mp hy).2)

/-- C4 witness: the scenario store at level 20, where the tail of returns at
or below the VaR is `[-0.05]` with mean `-0.05 ≤ -0.026`. -/
theorem cvar_le_var_witness :
    ∃ c v, cvar_historical exVar 0 10 20 = .ok c ∧ var_historical exVar 0 10 20 = .ok v ∧
      c ≤ v :=
  cvar_le_var exVar 0 10 20 (by norm_num) (by norm_num) (by decide)

theorem returnsOf_nil : returnsOf [] = [] := rfl

/-- C5 counterexample: with start 1 after end 0 the slice is empty, yet
`semi_deviation` proceeds on it and returns NaN — no failure of any kind
(in particular no `InvalidRangeError`) is reported. -/
theorem invalid_range_cex :
    (0 : ℤ) < 1 ∧ sliceRange exGrow 1 0 = [] ∧
    semi_deviation exGrow 1 0 = Outcome.nan ∧
    semi_deviation exGrow 1 0 ≠ Outcome.raised := by
  have hnan : semi_deviation exGrow 1 0 = Outcome.nan := by
    norm_num [semi_deviation, semi_of, sliceRange, exGrow, returnsOf, pct_change]
  refine ⟨by norm_num, by decide, hnan, ?_⟩
  rw [hnan]
  exact fun hc => Outcome.noConfusion hc

/-- C5 amended: a reversed window is never validated; it produces an empty
slice, after which `annualized_performance`, `max_drawdown`, `var_historical`
and `cvar_historical` fail with downstream errors (zero division, argmin or
percentile of an empty array), while `semi_deviation`, `information_ratio`
and `omega_ratio` silently return NaN. -/
theorem invalid_range_behavior (df : Store) (s e : ℤ) (w : ℕ) (threshold lev : ℚ)
    (h : e < s) :
    sliceRange df s e = [] ∧
    annualized_performance df s e = Outcome.raised ∧
    max_drawdown df s e w = Outcome.raised ∧
    var_historical df s e lev = Outcome.raised ∧
    cvar_historical df s e lev = Outcome.raised ∧
    semi_deviation df s e = Outcome.nan ∧
    information_ratio df s e = Outcome.nan ∧
    omega_ratio df s e threshold = Outcome.nan := by
  have hslice : sliceRange df s e = [] := sliceRange_of_gt df s e h
  refine ⟨hslice, ?_, ?_, ?_, ?_, ?_, ?_, ?_⟩
  · simp [annualized_performance, hslice, returnsOf_nil, annualized_of]
  · rcases Nat.eq_zero_or_pos w with rfl | hw
    · simp [max_drawdown]
    · have hw0 : ¬ w = 0 := by omega
      simp [max_drawdown, if_neg hw0, hslice, ddOf]
  · by_cases hcond : lev < 0 ∨ 100 < lev
    · simp [var_historical, var_of, if_pos hcond]
    · simp [var_historical, var_of, if_neg hcond, hslice, returnsOf_nil]
  · by_cases hcond : lev < 0 ∨ 100 < lev
    · simp [cvar_historical, cvar_of, if_pos hcond]
    · simp [cvar_historical, cvar_of, if_neg hcond, hslice, returnsOf_nil]
  · simp [semi_deviation, semi_of, hslice, returnsOf_nil]
  · simp [information_ratio, info_of, hslice, returnsOf_nil]
  · simp [omega_ratio, omega_of, hslice, returnsOf_nil]

/-- C5 amended witness: the reversed window `[1, 0]` on a concrete store. -/
theorem invalid_range_behavior_witness :
    sliceRange exGrow 1 0 = [] ∧
    annualized_performance exGrow 1 0 = Outcome.raised ∧
    max_drawdown exGrow 1 0 4 = Outcome.raised ∧
    var_historical exGrow 1 0 5 = Outcome.raised ∧
    cvar_historical exGrow 1 0 5 = Outcome.raised ∧
    semi_deviation exGrow 1 0 = Outcome.nan ∧
    information_ratio exGrow 1 0 = Outcome.nan ∧
    omega_ratio exGrow 1 0 0 = Outcome.nan :=
  invalid_range_behavior exGrow 1 0 4 0 5 (by norm_num)

/-- C6 counterexample: on the store with returns `[1/10, 1/10]` there are no
negative returns, the sample deviation is zero, and the upside set for
threshold 1 is empty; the three metrics return NaN or an infinity instead of
reporting a catchable failure. -/
theorem degenerate_nan_cex :
    (returnsOf (sliceRange exGrow 0 10)).filter (fun x => x < 0) = [] ∧
    semi_deviation exGrow 0 10 = Outcome.nan ∧
    sampleVar (returnsOf (sliceRange exGrow 0 10)) = 0 ∧
    information_ratio exGrow 0 10 = Outcome.inf ∧
    (returnsOf (sliceRange exGrow 0 10)).filter (fun x => (1 : ℚ) < x) = [] ∧
    omega_ratio exGrow 0 10 1 = Outcome.nan := by
  refine ⟨?_, ?_, ?_, ?_, ?_, ?_⟩ <;>
    norm_num [semi_deviation, semi_of, information_ratio, info_of, omega_ratio, omega_of,
      sliceRange, exGrow, returnsOf, pct_change, sampleVar, mean]

/-- C6 amended: in each degenerate case the operation returns a NaN (or, for
`information_ratio` with zero deviation and nonzero mean, an infinity)
rather than raising a distinct catchable failure. -/
theorem degenerate_outcomes (df : Store) (s e : ℤ) (threshold : ℚ) :
    ((returnsOf (sliceRange df s e)).filter (fun x => x < 0) = [] →
      semi_deviation df s e = Outcome.nan) ∧
    ((returnsOf (sliceRange df s e)).length < 2 →
      information_ratio df s e = Outcome.nan) ∧
    (2 ≤ (returnsOf (sliceRange df s e)).length →
      sampleVar (returnsOf (sliceRange df s e)) = 0 →
      information_ratio df s e = Outcome.nan ∨ information_ratio df s e = Outcome.inf) ∧
    ((returnsOf (sliceRange df s e)).filter (fun x => threshold < x) = [] ∨
      (returnsOf (sliceRange df s e)).filter (fun x => x ≤ threshold) = [] →
      omega_ratio df s e threshold = Outcome.nan) := by
  refine ⟨?_, ?_, ?_, ?_⟩
  · intro hneg
    have hlt : ((returnsOf (sliceRange df s e)).filter (fun x => x < 0)).length < 2 := by
      rw [hneg]
      norm_num
    simp only [semi_deviation, semi_of, if_pos hlt]
  · intro hlen
    simp only [information_ratio, info_of, if_pos hlen]
  · intro hlen hvar
    have hnlt : ¬ (returnsOf (sliceRange df s e)).length < 2 := by omega
    by_cases hmean : mean (returnsOf (sliceRange df s e)) = 0
    · exact Or.inl (by simp only [information_ratio, info_of, if_neg hnlt, if_pos hvar,
        if_pos hmean])
    · exact Or.inr (by simp only [information_ratio, info_of, if_neg hnlt, if_pos hvar,
        if_neg hmean])
  · intro hor
    have hcond : ((returnsOf (sliceRange df s e)).filter (fun x => threshold < x)).length = 0 ∨
        ((returnsOf (sliceRange df s e)).filter (fun x => x ≤ threshold)).length = 0 := by
      rcases hor with hh | hh
      · exact Or.inl (by rw [hh]; rfl)
      · exact Or.inr (by rw [hh]; rfl)
    simp only [omega_ratio, omega_of, if_pos hcond]

/-- C6 amended witness: the no-negative-returns case on `exGrow`. -/
theorem degenerate_outcomes_witness :
    (returnsOf (sliceRange exGrow 0 10)).filter (fun x => x < 0) = [] ∧
    semi_deviation exGrow 0 10 = Outcome.nan :=
  have hf : (returnsOf (sliceRange exGrow 0 10)).filter (fun x => x < 0) = [] := by
    norm_num [returnsOf, sliceRange, exGrow, pct_change]
  ⟨hf, (degenerate_outcomes exGrow 0 10 1).1 hf⟩

/-- C8 counterexample: a window with only two (distinct) derived returns, on
which `skewness` returns the number 0 rather than an undefined result. -/
theorem skewness_two_points_cex :
    (returnsOf (sliceRange exSkew 0 10)).length = 2 ∧
    skewness exSkew 0 10 = Outcome.ok 0 := by
  constructor
  · decide
  · norm_num [skewness, skew_of, exSkew, sliceRange, returnsOf, pct_change, popVar, popM3, mean]

/-- C8 amended: `skewness` computes the population (biased) Fisher–Pearson
coefficient, the mean of the cubed standardized deviations; it does not
enforce `m ≥ 3`: on two distinct returns it returns 0, and it is NaN exactly
when the return series is empty or has zero variance. -/
theorem skewness_spec (df : Store) (s e : ℤ) :
    (returnsOf (sliceRange df s e) ≠ [] → popVar (returnsOf (sliceRange df s e)) ≠ 0 →
      skewness df s e = Outcome.ok
        (((returnsOf (sliceRange df s e)).map (fun x : ℚ =>
          (((x : ℝ) - (mean (returnsOf (sliceRange df s e)) : ℝ)) /
            Real.sqrt ((popVar (returnsOf (sliceRange df s e)) : ℚ) : ℝ)) ^ 3)).sum /
          (((returnsOf (sliceRange df s e)).length : ℕ) : ℝ))) ∧
    ((returnsOf (sliceRange df s e)).length = 2 → popVar (returnsOf (sliceRange df s e)) ≠ 0 →
      skewness df s e = Outcome.ok 0) ∧
    (returnsOf (sliceRange df s e) = [] ∨ popVar (returnsOf (sliceRange df s e)) = 0 →
      skewness df s e = Outcome.nan) := by
  refine ⟨?_, ?_, ?_⟩
  · intro hne hvar
    have hlen : ¬ (returnsOf (sliceRange df s e)).length = 0 :=
      fun hc => hne (List.length_eq_zero.mp hc)
    have hvpos : (0 : ℚ) < popVar (returnsOf (sliceRange df s e)) :=
      lt_of_le_of_ne (popVar_nonneg _) (Ne.symm hvar)
    have hsq : (0 : ℝ) < Real.sqrt ((popVar (returnsOf (sliceRange df s e)) : ℚ) : ℝ) := by
      apply Real.sqrt_pos.mpr
      exact_mod_cast hvpos
    simp only [skewness, skew_of, if_neg hlen, if_neg hvar]
    congr 1
    have hcast : ((popM3 (returnsOf (sliceRange df s e)) : ℚ) : ℝ) =
        ((returnsOf (sliceRange df s e)).map (fun x : ℚ =>
          ((x : ℝ) - (mean (returnsOf (sliceRange df s e)) : ℝ)) ^ 3)).sum /
          (((returnsOf (sliceRange df s e)).length : ℕ) : ℝ) := by
      unfold popM3
      rw [Rat.cast_div, rat_cast_list_sum, List.map_map]
      simp only [Function.comp_def, Rat.cast_pow, Rat.cast_sub, Rat.cast_natCast]
    rw [hcast]
    have hrhs : ((returnsOf (sliceRange df s e)).map (fun x : ℚ =>
        (((x : ℝ) - (mean (returnsOf (sliceRange df s e)) : ℝ)) /
          Real.sqrt ((popVar (returnsOf (sliceRange df s e)) : ℚ) : ℝ)) ^ 3)).sum =
        ((returnsOf (sliceRange df s e)).map (fun x : ℚ =>
          ((x : ℝ) - (mean (returnsOf (sliceRange df s e)) : ℝ)) ^ 3)).sum /
          Real.sqrt ((popVar (returnsOf (sliceRange df s e)) : ℚ) : ℝ) ^ 3 := by
      rw [← list_sum_map_div, List.map_map]
      simp only [Function.comp_def, div_pow]
    rw [hrhs, div_right_comm]
  · intro h2 hvar
    have hlen : ¬ (returnsOf (sliceRange df s e)).length = 0 := by omega
    obtain ⟨a, b, hab⟩ := List.length_eq_two.mp h2
    simp only [skewness, skew_of, if_neg hlen, if_neg hvar]
    rw [hab, popM3_pair]
    norm_num
  · intro hor
    rcases hor with hnil | hvar
    · simp [skewness, skew_of, hnil]
    · by_cases hlen : (returnsOf (sliceRange df s e)).length = 0
      · have hnil := List.length_eq_zero.mp hlen
        simp [skewness, skew_of, hnil]
      · simp [skewness, skew_of, if_neg hlen, if_pos hvar]

/-- C8 amended witness: the two-return store, with nonzero variance, on which
`skewness` evaluates to the number 0. -/
theorem skewness_spec_witness :
    (returnsOf (sliceRange exSkew 0 10)).length = 2 ∧
    popVar (returnsOf (sliceRange exSkew 0 10)) ≠ 0 ∧
    skewness exSkew 0 10 = Outcome.ok 0 :=
  have h2 : (returnsOf (sliceRange exSkew 0 10)).length = 2 := by decide
  have hv : popVar (returnsOf (sliceRange exSkew 0 10)) ≠ 0 := by
    norm_num [popVar, mean, returnsOf, sliceRange, pct_change, exSkew]
  ⟨h2, hv, (skewness_spec exSkew 0 10).2.1 h2 hv⟩

/-- C9 counterexample: with a negative threshold the Omega ratio of the
returns `[-1/2, -9/10]` is the negative number `-5/9` although both subsets
are nonempty; and with returns `[1/10, 0]` at threshold 0 the downside mean
is zero and the result is an infinity, not a positive real. -/
theorem omega_cex :
    ((returnsOf (sliceRange exOmegaNeg 0 10)).filter (fun x => (-7/10 : ℚ) < x) ≠ [] ∧
      (returnsOf (sliceRange exOmegaNeg 0 10)).filter (fun x => x ≤ (-7/10 : ℚ)) ≠ [] ∧
      omega_ratio exOmegaNeg 0 10 (-7/10) = Outcome.ok (-5/9) ∧ (-5/9 : ℚ) < 0) ∧
    ((returnsOf (sliceRange exOmegaInf 0 10)).filter (fun x => (0 : ℚ) < x) ≠ [] ∧
      (returnsOf (sliceRange exOmegaInf 0 10)).filter (fun x => x ≤ (0 : ℚ)) ≠ [] ∧
      omega_ratio exOmegaInf 0 10 0 = Outcome.inf) := by
  refine ⟨⟨?_, ?_, ?_, by norm_num⟩, ?_, ?_, ?_⟩
  · norm_num [returnsOf, sliceRange, pct_change, exOmegaNeg]
  · norm_num [returnsOf, sliceRange, pct_change, exOmegaNeg]
  · have h1 : |(9/10 : ℚ)| = 9/10 := abs_of_nonneg (by norm_num)
    have h2 : |(-(9/10) : ℚ)| = 9/10 := by rw [abs_neg, h1]
    norm_num [omega_ratio, omega_of, returnsOf, sliceRange, pct_change, exOmegaNeg, mean,
      h1, h2]
  · norm_num [returnsOf, sliceRange, pct_change, exOmegaInf]
  · norm_num [returnsOf, sliceRange, pct_change, exOmegaInf]
  · norm_num [omega_ratio, omega_of, returnsOf, sliceRange, pct_change, exOmegaInf, mean]

/-- C9 amended: for a nonnegative threshold, whenever both subsets are
nonempty and the downside subset has nonzero mean, the Omega ratio is a
finite strictly positive value. -/
theorem omega_pos_spec (df : Store) (s e : ℤ) (threshold : ℚ) (ht : 0 ≤ threshold)
    (hup : (returnsOf (sliceRange df s e)).filter (fun x => threshold < x) ≠ [])
    (hdn : (returnsOf (sliceRange df s e)).filter (fun x => x ≤ threshold) ≠ [])
    (hmean : mean ((returnsOf (sliceRange df s e)).filter (fun x => x ≤ threshold)) ≠ 0) :
    ∃ v, omega_ratio df s e threshold = Outcome.ok v ∧ 0 < v := by
  have hcond : ¬ (((returnsOf (sliceRange df s e)).filter (fun x => threshold < x)).length = 0 ∨
      ((returnsOf (sliceRange df s e)).filter (fun x => x ≤ threshold)).length = 0) := by
    push_neg
    exact ⟨fun hc => hup (List.length_eq_zero.mp hc), fun hc => hdn (List.length_eq_zero.mp hc)⟩
  refine ⟨mean ((returnsOf (sliceRange df s e)).filter (fun x => threshold < x)) /
    |mean ((returnsOf (sliceRange df s e)).filter (fun x => x ≤ threshold))|, ?_, ?_⟩
  · simp only [omega_ratio, omega_of, if_neg hcond, if_neg hmean]
  · apply div_pos
    · have hgt : threshold <
          mean ((returnsOf (sliceRange df s e)).filter (fun x => threshold < x)) := by
        unfold mean
        apply lt_mean_of_lt _ _ hup
        intro x hx
        exact of_decide_eq_true ((List.mem_filter.mp hx).2)
      linarith
    · exact abs_pos.mpr hmean

/-- C9 amended witness: returns `[-1/10, 2/9]` at threshold 0 give the
positive Omega value `20/9`. -/
theorem omega_pos_spec_witness :
    ∃ v, omega_ratio exOmegaPos 0 10 0 = Outcome.ok v ∧ 0 < v :=
  omega_pos_spec exOmegaPos 0 10 0 (le_refl 0)
    (by norm_num [returnsOf, sliceRange, pct_change, exOmegaPos])
    (by norm_num [returnsOf, sliceRange, pct_change, exOmegaPos])
    (by norm_num [mean, returnsOf, sliceRange, pct_change, exOmegaPos])

/-- C10: a single strictly negative return leaves the `ddof = 1` variance of
the negative subset undefined, so `semi_deviation` yields NaN; with at least
two strictly negative returns it yields a number. -/
theorem semi_deviation_one_negative (df : Store) (s e : ℤ) :
    (((returnsOf (sliceRange df s e)).filter (fun x => x < 0)).length = 1 →
      semi_deviation df s e = Outcome.nan) ∧
    (2 ≤ ((returnsOf (sliceRange df s e)).filter (fun x => x < 0)).length →
      ∃ y, semi_deviation df s e = Outcome.ok y) := by
  constructor
  · intro h1
    have hlt : ((returnsOf (sliceRange df s e)).filter (fun x => x < 0)).length < 2 := by omega
    simp only [semi_deviation, semi_of, if_pos hlt]
  · intro h2
    have hnlt : ¬ ((returnsOf (sliceRange df s e)).filter (fun x => x < 0)).length < 2 := by
      omega
    exact ⟨Real.sqrt
      ((sampleVar ((returnsOf (sliceRange df s e)).filter (fun x => x < 0)) : ℚ) : ℝ),
      by simp only [semi_deviation, semi_of, if_neg hnlt]⟩

/-- C10 witness: the store with returns `[-1/10, 1/10]` has exactly one
negative return and `semi_deviation` yields NaN on it. -/
theorem semi_deviation_one_negative_witness :
    ((returnsOf (sliceRange exOneNeg 0 10)).filter (fun x => x < 0)).length = 1 ∧
    semi_deviation exOneNeg 0 10 = Outcome.nan :=
  have h1 : ((returnsOf (sliceRange exOneNeg 0 10)).filter (fun x => x < 0)).length = 1 := by
    norm_num [returnsOf, sliceRange, pct_change, exOneNeg]
  ⟨h1, (semi_deviation_one_negative exOneNeg 0 10).1 h1⟩

end Risquanta
